import Mathlib

/-!
# Kleisli iterator composition — verification of the composition combinator

Shallow embedding of the library (`src/lib.rs`): arrows `A -> Sequence<B>`
are Rust `FnMut` closures, modelled as a captured mutable state together
with a call function; the sequence type `U : IntoIterator` is modelled by
the list of items its iterator produces.  `KleisliCompose` pairs two
arrows; `ApplyKleisliCompose` holds an input `a` and a pair, and its
`next` re-invokes `f` at `a`, lazily flat-maps the produced items through
`g`, and returns the head of the flattened sequence, exactly as
`(self.k.f)(self.a).into_iter().flat_map(|x| (self.k.g)(x).into_iter()).next()`.
-/

namespace Kleisli

universe u v w

/-- An arrow `A -> Sequence<B>`: a Rust `FnMut` closure, modelled as its
captured mutable state `σ` plus a call function updating that state and
returning the produced sequence of items. -/
structure Arrow (σ : Type u) (α : Type v) (β : Type w) where
  state : σ
  call : σ → α → σ × List β

/-- One invocation of the closure: the state is updated, the produced
items are returned.  This is the only way the combinator ever runs an
arrow. -/
def Arrow.invoke (ar : Arrow σ α β) (a : α) : Arrow σ α β × List β :=
  (⟨(ar.call ar.state a).1, ar.call⟩, (ar.call ar.state a).2)

/-- A stateless closure: captures no mutable state (`σ = Unit`), so its
output depends on the argument alone. -/
def Arrow.ofFun (f : α → List β) : Arrow Unit α β :=
  ⟨(), fun s a => (s, f a)⟩

/-- `KleisliCompose` from the source: the structural pairing of the two
arrows `f` and `g` (the `PhantomData` field carries no data and is
omitted). -/
structure KleisliCompose (σf : Type u) (σg : Type u) (α β γ : Type u) where
  f : Arrow σf α β
  g : Arrow σg β γ

/-- `KleisliCompose::new`: stores the two arrows, running neither. -/
def KleisliCompose.new (f : Arrow σf α β) (g : Arrow σg β γ) :
    KleisliCompose σf σg α β γ :=
  ⟨f, g⟩

/-- `kleisli_compose` from the source: `KleisliCompose::new f g`. -/
def kleisli_compose (f : Arrow σf α β) (g : Arrow σg β γ) :
    KleisliCompose σf σg α β γ :=
  KleisliCompose.new f g

/-- `ApplyKleisliCompose` from the source: the stored input value `a`
together with the composed pair `k`. -/
structure ApplyKleisliCompose (σf σg α β γ : Type u) where
  a : α
  k : KleisliCompose σf σg α β γ

/-- `ApplyKleisliCompose::new`: stores the input and the pair, running
nothing. -/
def ApplyKleisliCompose.new (a : α) (kc : KleisliCompose σf σg α β γ) :
    ApplyKleisliCompose σf σg α β γ :=
  ⟨a, kc⟩

/-- `flat_map(|x| g(x).into_iter()).next()` over an already-produced list
of items: walk the items in order, invoke `g` on each, and stop at the
first non-empty output, returning its head; `g`'s state is threaded
through the successive invocations.  Items after the stopping point are
never passed to `g`. -/
def flatMapNext (g : Arrow σg β γ) : List β → Arrow σg β γ × Option γ
  | [] => (g, none)
  | b :: bs =>
    match g.invoke b with
    | (g', []) => flatMapNext g' bs
    | (g', c :: _) => (g', some c)

/-- `ApplyKleisliCompose::next` from the source: invoke `f` once at the
stored input `a`, lazily flat-map the produced items through `g`, and
return the first element of the flattened sequence.  The updated closure
states are stored back (Rust's `&mut self`); the input `a` and the call
functions are untouched. -/
def ApplyKleisliCompose.next (s : ApplyKleisliCompose σf σg α β γ) :
    ApplyKleisliCompose σf σg α β γ × Option γ :=
  (⟨s.a, ⟨(s.k.f.invoke s.a).1,
          (flatMapNext s.k.g (s.k.f.invoke s.a).2).1⟩⟩,
   (flatMapNext s.k.g (s.k.f.invoke s.a).2).2)

/-- The iterator state after `n` calls to `next`. -/
def pullState (s : ApplyKleisliCompose σf σg α β γ) : Nat →
    ApplyKleisliCompose σf σg α β γ
  | 0 => s
  | n + 1 => pullState s.next.1 n

/-- The list of results of `n` successive calls to `next`. -/
def pulls (s : ApplyKleisliCompose σf σg α β γ) : Nat → List (Option γ)
  | 0 => []
  | n + 1 => s.next.2 :: pulls s.next.1 n

/-- The outputs `g` would produce on each item of the list, threading
`g`'s state left to right. -/
def gOutputs (g : Arrow σg β γ) : List β → List (List γ)
  | [] => []
  | b :: bs =>
    match g.invoke b with
    | (g', cs) => cs :: gOutputs g' bs

/-- The arrow resulting from invoking `g` on every item of the list in
order. -/
def invokeAll (g : Arrow σg β γ) : List β → Arrow σg β γ
  | [] => g
  | b :: bs => invokeAll (g.invoke b).1 bs

/-- The arrow resulting from `n` invocations at the fixed input `a`. -/
def invokeRepeat (f : Arrow σf α β) (a : α) : Nat → Arrow σf α β
  | 0 => f
  | n + 1 => invokeRepeat (f.invoke a).1 a n

/-- The applied composition of two stateless closures. -/
def pureApply (f : α → List β) (g : β → List γ) (a : α) :
    ApplyKleisliCompose Unit Unit α β γ :=
  ApplyKleisliCompose.new a (kleisli_compose (Arrow.ofFun f) (Arrow.ofFun g))

theorem Arrow.ofFun_invoke (f : α → List β) (a : α) :
    (Arrow.ofFun f).invoke a = (Arrow.ofFun f, f a) := rfl

theorem flatMapNext_ofFun (g : β → List γ) (bs : List β) :
    flatMapNext (Arrow.ofFun g) bs = (Arrow.ofFun g, (bs.flatMap g).head?) := by
  induction bs with
  | nil => rfl
  | cons b bs ih =>
    cases h : g b with
    | nil => simp [flatMapNext, Arrow.ofFun_invoke, h, ih, List.flatMap_cons]
    | cons c cs => simp [flatMapNext, Arrow.ofFun_invoke, h, List.flatMap_cons]

/-- A pull on a stateless applied composition leaves the state unchanged
and yields the head of the flattened sequence. -/
theorem pureApply_next (f : α → List β) (g : β → List γ) (a : α) :
    (pureApply f g a).next = (pureApply f g a, ((f a).flatMap g).head?) := by
  simp [pureApply, ApplyKleisliCompose.next, ApplyKleisliCompose.new,
    kleisli_compose, KleisliCompose.new, Arrow.ofFun_invoke, flatMapNext_ofFun]

theorem pureApply_pulls (f : α → List β) (g : β → List γ) (a : α) (n : Nat) :
    pulls (pureApply f g a) n = List.replicate n (((f a).flatMap g).head?) := by
  induction n with
  | zero => rfl
  | succ n ih =>
    simp [pulls, pureApply_next, ih, List.replicate_succ]

/-- C1: a single call to `next` on an applied composition evaluates
`f(a)`, flat-maps each produced `b` through `g`, and returns the first
element of the flattened sequence; in particular, when `f(a) = [b1, b2]`,
`g(b1) = [c1, c2]` and `g(b2) = [c3]`, one pull yields `some c1`, the head
of the flattened concatenation `[c1, c2, c3]`. -/
theorem next_head_of_flattened (f : α → List β) (g : β → List γ) (a : α)
    (b1 b2 : β) (c1 c2 c3 : γ)
    (hf : f a = [b1, b2]) (hg1 : g b1 = [c1, c2]) (hg2 : g b2 = [c3]) :
    (pureApply f g a).next.2 = ((f a).flatMap g).head? ∧
    (pureApply f g a).next.2 = some c1 := by
  constructor
  · rw [pureApply_next]
  · rw [pureApply_next, hf]
    simp [hg1, hg2]

theorem next_head_of_flattened_witness :
    (pureApply (fun _ : Nat => [1, 2]) (fun b => if b = 1 then [10, 11] else [12])
        0).next.2 = some 10 :=
  (next_head_of_flattened (fun _ : Nat => [1, 2])
    (fun b => if b = 1 then [10, 11] else [12]) 0 1 2 10 11 12
    rfl (by decide) (by decide)).2

/-- An arrow whose closure captures a mutable counter: each invocation
produces the current count and increments it, like a Rust `FnMut` closure
over a captured `usize`. -/
def counterArrow : Arrow Nat Nat Nat :=
  ⟨0, fun s _ => (s + 1, [s])⟩

/-- C2 counterexample: arrows are `FnMut` closures, so an arrow mutating
captured state makes successive pulls on the same `ApplyKleisliCompose`
yield different values — the first two pulls are `[some 0, some 1]`, not
two copies of the single-pull result. -/
theorem repeated_pulls_differ_for_stateful_arrow :
    pulls (ApplyKleisliCompose.new 0
        (kleisli_compose counterArrow (Arrow.ofFun fun b => [b]))) 2 ≠
      List.replicate 2 (ApplyKleisliCompose.new 0
        (kleisli_compose counterArrow (Arrow.ofFun fun b => [b]))).next.2 := by
  decide

/-- C2 amended: for arrows that capture no mutable state, pulling the same
`ApplyKleisliCompose` N times (N ≥ 2) yields the identical value on every
pull, equal to the single-pull result — each pull restarts from scratch
and never advances past the head of the flattened expansion. -/
theorem pure_repeated_pulls_constant (f : α → List β) (g : β → List γ)
    (a : α) (n : Nat) (_hn : 2 ≤ n) :
    pulls (pureApply f g a) n = List.replicate n ((pureApply f g a).next.2) := by
  rw [pureApply_pulls, pureApply_next]

theorem pure_repeated_pulls_constant_witness :
    pulls (pureApply (fun _ : Nat => [5, 6]) (fun b => [b + 1]) 0) 3 =
      List.replicate 3 ((pureApply (fun _ : Nat => [5, 6])
        (fun b => [b + 1]) 0).next.2) :=
  pure_repeated_pulls_constant (fun _ : Nat => [5, 6]) (fun b => [b + 1]) 0 3
    (by decide)

/-- C3 counterexample: with `f a = [1, 2]` and `g b = [10b, 10b + 1]` the
flattened nested-loop expansion is `[10, 11, 20, 21]`, but four pulls
yield `[some 10, some 10, some 10, some 10]` — the iterator never
advances past the head, so repeated pulls do not enumerate the
concatenation. -/
theorem pulls_do_not_enumerate_flattening :
    pulls (pureApply (fun _ : Nat => [1, 2])
        (fun b => [10 * b, 10 * b + 1]) 0) 4 =
      [some 10, some 10, some 10, some 10] ∧
    pulls (pureApply (fun _ : Nat => [1, 2])
        (fun b => [10 * b, 10 * b + 1]) 0) 4 ≠
      [some 10, some 11, some 20, some 21] := by
  decide

/-- C3 amended: every pull yields the head of the depth-first,
left-to-right flattened concatenation of `g(b)` over the `b` produced by
`f(a)` — the order of the flattening is respected in the sense that the
one reachable element is its first, but repeated pulls never advance to
the later elements. -/
theorem every_pull_yields_flattening_head (f : α → List β) (g : β → List γ)
    (a : α) (n : Nat) :
    pulls (pureApply f g a) n = List.replicate n (((f a).flatMap g).head?) :=
  pureApply_pulls f g a n

/-- C4: `kleisli_compose` (via `KleisliCompose::new`) and
`ApplyKleisliCompose::new` are purely structural: the arrows are stored
with their captured states untouched, so construction invokes neither
`f` nor `g`. -/
theorem construction_invokes_nothing (f : Arrow σf α β) (g : Arrow σg β γ)
    (a : α) :
    (kleisli_compose f g).f = f ∧ (kleisli_compose f g).g = g ∧
    (ApplyKleisliCompose.new a (kleisli_compose f g)).a = a ∧
    (ApplyKleisliCompose.new a (kleisli_compose f g)).k.f.state = f.state ∧
    (ApplyKleisliCompose.new a (kleisli_compose f g)).k.g.state = g.state :=
  ⟨rfl, rfl, rfl, rfl, rfl⟩

/-- C5: if `f a` is empty, or every `g b` for `b` in `f a` is empty, then
every pull of the applied composition yields no element. -/
theorem empty_propagation (f : α → List β) (g : β → List γ) (a : α)
    (n : Nat) (h : f a = [] ∨ ∀ b ∈ f a, g b = []) :
    pulls (pureApply f g a) n = List.replicate n none := by
  have hemp : (f a).flatMap g = [] := by
    rcases h with h | h
    · simp [h]
    · simp [List.flatMap_eq_nil_iff]
      exact h
  rw [pureApply_pulls, hemp]
  rfl

theorem empty_propagation_witness :
    pulls (pureApply (fun _ : Nat => [1, 2, 3]) (fun _ => ([] : List Nat)) 0) 2 =
      List.replicate 2 none :=
  empty_propagation (fun _ : Nat => [1, 2, 3]) (fun _ => ([] : List Nat)) 0 2
    (Or.inr (by decide))

/-- C7: each call to `next` invokes `f` exactly once, at the stored input
`a`; hence after `n` pulls the `f` closure's captured state is the result
of `n` successive invocations at `a` — its side effects happen once per
pull, repeatedly across pulls. -/
theorem f_invoked_once_per_pull (s : ApplyKleisliCompose σf σg α β γ)
    (n : Nat) :
    s.next.1.k.f = (s.k.f.invoke s.a).1 ∧
    (pullState s n).k.f = invokeRepeat s.k.f s.a n := by
  refine ⟨rfl, ?_⟩
  induction n generalizing s with
  | zero => rfl
  | succ n ih =>
    rw [pullState, invokeRepeat]
    exact ih s.next.1

theorem flatMapNext_state (g : Arrow σg β γ) (bs : List β) :
    (flatMapNext g bs).1 =
      invokeAll g
        (bs.take ((gOutputs g bs).findIdx (fun cs => !cs.isEmpty) + 1)) := by
  induction bs generalizing g with
  | nil => rfl
  | cons b bs ih =>
    rcases h : g.invoke b with ⟨g', cs⟩
    cases cs with
    | nil =>
      simp [flatMapNext, gOutputs, h, invokeAll, List.findIdx_cons, ih]
    | cons c cs =>
      simp [flatMapNext, gOutputs, h, invokeAll, List.findIdx_cons]

/-- C9: within one call to `next`, `g` is invoked on the items of `f(a)`
in emission order only up to and including the first item whose
`g`-output is non-empty (or on all of them when every output is empty):
the resulting `g` closure is the one obtained by invoking `g` exactly on
that prefix. -/
theorem g_invoked_only_to_first_nonempty
    (s : ApplyKleisliCompose σf σg α β γ) :
    s.next.1.k.g =
      invokeAll s.k.g
        ((s.k.f.invoke s.a).2.take
          ((gOutputs s.k.g (s.k.f.invoke s.a).2).findIdx
            (fun cs => !cs.isEmpty) + 1)) :=
  flatMapNext_state s.k.g (s.k.f.invoke s.a).2

theorem flatMapNext_call (g : Arrow σg β γ) (bs : List β) :
    (flatMapNext g bs).1.call = g.call := by
  induction bs generalizing g with
  | nil => rfl
  | cons b bs ih =>
    rcases h : g.invoke b with ⟨g', cs⟩
    have hg : g'.call = g.call := by
      have h1 : g' = (g.invoke b).1 := by rw [h]
      rw [h1]
      rfl
    cases cs with
    | nil =>
      rw [flatMapNext, h]
      rw [ih g', hg]
    | cons c cs =>
      rw [flatMapNext, h]
      exact hg

/-- C10: the stored input value `a` is never modified by pulls — after
any number of calls to `next`, the iterator still holds exactly the `a`
supplied to `ApplyKleisliCompose::new`, and the pairing's two closures
are still the same functions (only their captured states may have
changed). -/
theorem input_and_pairing_preserved (s : ApplyKleisliCompose σf σg α β γ)
    (n : Nat) :
    (pullState s n).a = s.a ∧
    (pullState s n).k.f.call = s.k.f.call ∧
    (pullState s n).k.g.call = s.k.g.call := by
  induction n generalizing s with
  | zero => exact ⟨rfl, rfl, rfl⟩
  | succ n ih =>
    obtain ⟨h1, h2, h3⟩ := ih s.next.1
    refine ⟨?_, ?_, ?_⟩
    · rw [pullState, h1]
      rfl
    · rw [pullState, h2]
      rfl
    · rw [pullState, h3]
      exact flatMapNext_call s.k.g (s.k.f.invoke s.a).2

/-- One pull of the outer `flat_map(h).next()` when the outer sequence is
itself an `ApplyKleisliCompose` iterator — the evaluation of the
left-nested composition `compose(compose(f,g), h)`.  The loop repeatedly
pulls the inner iterator: on `some c` it invokes `h`, a non-empty output
answers the pull and an empty output loops back for another inner pull;
on `none` the pull answers with no element.  `fuel` bounds the number of
inner pulls; `none` overall means the loop has not answered within
`fuel` inner pulls (in Rust the loop simply keeps running). -/
def flatMapPullLoop (h : Arrow σh γ δ)
    (inner : ApplyKleisliCompose σf σg α β γ) :
    Nat → Option (Arrow σh γ δ × ApplyKleisliCompose σf σg α β γ × Option δ)
  | 0 => none
  | fuel + 1 =>
    match inner.next with
    | (inner', none) => some (h, inner', none)
    | (inner', some c) =>
      match h.invoke c with
      | (h', []) => flatMapPullLoop h' inner' fuel
      | (h', d :: _) => some (h', inner', some d)

/-- The value produced by one pull of `apply(compose(compose(f,g), h), a)`
within `fuel` inner pulls: the outer arrow wraps the composition of `f`
and `g`, so invoking it at `a` just builds the inner iterator (running no
arrow), and the outer flat_map then drives that iterator as in
`flatMapPullLoop`. -/
def nestedLeftNext (f : Arrow σf α β) (g : Arrow σg β γ) (h : Arrow σh γ δ)
    (a : α) (fuel : Nat) : Option (Option δ) :=
  match flatMapPullLoop h
      (ApplyKleisliCompose.new a (kleisli_compose f g)) fuel with
  | none => none
  | some r => some r.2.2

/-- The outer flat_map walk for the right-nested composition
`compose(f, compose(g,h))`: for each item `b` of `f(a)` in order, the
wrapped inner composition is applied to `b` and pulled once; `some d`
answers the pull, while `none` exhausts that inner iterator and the walk
moves on to the next item. -/
def rightLoop (g : Arrow σg β γ) (h : Arrow σh γ δ) :
    List β → (Arrow σg β γ × Arrow σh γ δ) × Option δ
  | [] => ((g, h), none)
  | b :: bs =>
    match (ApplyKleisliCompose.new b (kleisli_compose g h)).next with
    | (j, some d) => ((j.k.f, j.k.g), some d)
    | (j, none) => rightLoop j.k.f j.k.g bs

/-- The value produced by one pull of `apply(compose(f, compose(g,h)), a)`:
`f` is invoked once at `a` and the outer flat_map walks its items as in
`rightLoop`. -/
def nestedRightNext (f : Arrow σf α β) (g : Arrow σg β γ) (h : Arrow σh γ δ)
    (a : α) : Option δ :=
  (rightLoop g h (f.invoke a).2).2

theorem head?_some_eq {l : List γ} {c : γ} (h : l.head? = some c) :
    ∃ t, l = c :: t := by
  cases l with
  | nil => exact absurd h (by simp)
  | cons x xs =>
    simp only [List.head?_cons, Option.some.injEq] at h
    exact ⟨xs, by rw [h]⟩

theorem head?_none_eq {l : List γ} (h : l.head? = none) : l = [] := by
  cases l with
  | nil => rfl
  | cons x xs => exact absurd h (by simp)

theorem rightLoop_ofFun (g : β → List γ) (h : γ → List δ) (bs : List β) :
    rightLoop (Arrow.ofFun g) (Arrow.ofFun h) bs =
      ((Arrow.ofFun g, Arrow.ofFun h), ((bs.flatMap g).flatMap h).head?) := by
  induction bs with
  | nil => rfl
  | cons b bs ih =>
    have hnext : (ApplyKleisliCompose.new b
        (kleisli_compose (Arrow.ofFun g) (Arrow.ofFun h))).next =
        (ApplyKleisliCompose.new b
          (kleisli_compose (Arrow.ofFun g) (Arrow.ofFun h)),
         ((g b).flatMap h).head?) := pureApply_next g h b
    cases hv : ((g b).flatMap h).head? with
    | none =>
      have hempty : (g b).flatMap h = [] := head?_none_eq hv
      rw [rightLoop, hnext, hv]
      show rightLoop (Arrow.ofFun g) (Arrow.ofFun h) bs = _
      rw [ih]
      simp [List.flatMap_cons, List.flatMap_append, hempty]
    | some d =>
      obtain ⟨t, ht⟩ := head?_some_eq hv
      rw [rightLoop, hnext, hv]
      show ((Arrow.ofFun g, Arrow.ofFun h), some d) = _
      simp [List.flatMap_cons, List.flatMap_append, ht]

/-- The three arrows of the C6 counterexample, first stage: emit `0`
then `2`. -/
def c6f : Nat → List Nat := fun _ => [0, 2]

/-- Second stage of the C6 counterexample: `0 ↦ [1]`, otherwise `[3]`. -/
def c6g : Nat → List Nat := fun b => if b = 0 then [1] else [3]

/-- Third stage of the C6 counterexample: `1 ↦ []`, otherwise `[7]`. -/
def c6h : Nat → List Nat := fun c => if c = 1 then [] else [7]

theorem nestedLeft_c6_diverges (fuel : Nat) :
    nestedLeftNext (Arrow.ofFun c6f) (Arrow.ofFun c6g) (Arrow.ofFun c6h)
      0 fuel = none := by
  induction fuel with
  | zero => rfl
  | succ fuel ih => exact ih

/-- C6 counterexample: with `f = c6f`, `g = c6g`, `h = c6h` and input
`0`, the inner composition's head is `1` and `h 1 = []`, so a pull of
`apply(compose(compose(f,g), h), 0)` loops forever re-pulling the same
inner head (no answer for any amount of fuel), while a pull of
`apply(compose(f, compose(g,h)), 0)` moves past the exhausted inner
iterator and yields `some 7` — the two nestings do not yield the same
single head element. -/
theorem nested_compose_heads_disagree :
    (∀ fuel, nestedLeftNext (Arrow.ofFun c6f) (Arrow.ofFun c6g)
      (Arrow.ofFun c6h) 0 fuel = none) ∧
    nestedRightNext (Arrow.ofFun c6f) (Arrow.ofFun c6g) (Arrow.ofFun c6h)
      0 = some 7 :=
  ⟨nestedLeft_c6_diverges, by decide⟩

/-- C6 amended: both nested composites are built without invoking any
arrow (the wrapping construction is purely structural), and whenever the
third arrow produces at least one element on the head of the inner
flattening (if that head exists), a single pull of the left-nested and
of the right-nested composite yields the same single head element,
namely the head of the fully flattened `h`-image; without that proviso
the left-nested pull re-pulls the constant inner head forever and never
answers. -/
theorem nested_compose_head_agree (f : α → List β) (g : β → List γ)
    (h : γ → List δ) (a : α)
    (hterm : ∀ c, ((f a).flatMap g).head? = some c → h c ≠ []) :
    nestedLeftNext (Arrow.ofFun f) (Arrow.ofFun g) (Arrow.ofFun h) a 1 =
      some ((((f a).flatMap g).flatMap h).head?) ∧
    nestedRightNext (Arrow.ofFun f) (Arrow.ofFun g) (Arrow.ofFun h) a =
      (((f a).flatMap g).flatMap h).head? := by
  have hright : nestedRightNext (Arrow.ofFun f) (Arrow.ofFun g)
      (Arrow.ofFun h) a = (((f a).flatMap g).flatMap h).head? := by
    show (rightLoop (Arrow.ofFun g) (Arrow.ofFun h)
      ((Arrow.ofFun f).invoke a).2).2 = _
    rw [Arrow.ofFun_invoke]
    rw [rightLoop_ofFun]
  refine ⟨?_, hright⟩
  have hinner : (ApplyKleisliCompose.new a
      (kleisli_compose (Arrow.ofFun f) (Arrow.ofFun g))).next =
      (ApplyKleisliCompose.new a
        (kleisli_compose (Arrow.ofFun f) (Arrow.ofFun g)),
       ((f a).flatMap g).head?) := pureApply_next f g a
  cases hv : ((f a).flatMap g).head? with
  | none =>
    have hempty : (f a).flatMap g = [] := head?_none_eq hv
    rw [nestedLeftNext, flatMapPullLoop, hinner, hv]
    simp [hempty]
  | some c =>
    have hc := hterm c hv
    obtain ⟨t, ht⟩ := head?_some_eq hv
    cases hhc : h c with
    | nil => exact absurd hhc hc
    | cons d ds =>
      rw [nestedLeftNext, flatMapPullLoop, hinner, hv, ht]
      simp [Arrow.ofFun_invoke, hhc, List.flatMap_cons]

theorem nested_compose_head_agree_witness :
    nestedLeftNext (Arrow.ofFun fun _ : Nat => [1])
      (Arrow.ofFun fun b => [b + 1]) (Arrow.ofFun fun c => [c * 2]) 0 1 =
      some (some 4) :=
  Trans.trans
    (nested_compose_head_agree (fun _ : Nat => [1]) (fun b => [b + 1])
      (fun c => [c * 2]) 0
      (by intro c hc; simp at hc; subst hc; decide)).1
    (by decide)

/-- A fallible arrow: an invocation may fail, modelling a Rust panic (or
other failure per the arrow's own contract) escaping the closure call.
The combinator's code contains no handler, retry or recovery, so the
fallible model threads each call in the same order as
`ApplyKleisliCompose::next` and stops at the first failing call. -/
structure ArrowE (ε σ α β : Type u) where
  state : σ
  call : σ → α → Except ε (σ × List β)

/-- One invocation of a fallible closure. -/
def ArrowE.invoke (ar : ArrowE ε σ α β) (a : α) :
    Except ε (ArrowE ε σ α β × List β) :=
  match ar.call ar.state a with
  | .error e => .error e
  | .ok r => .ok (⟨r.1, ar.call⟩, r.2)

/-- The pairing of two fallible arrows, as in `KleisliCompose`. -/
structure KleisliComposeE (ε σf σg α β γ : Type u) where
  f : ArrowE ε σf α β
  g : ArrowE ε σg β γ

/-- The applied composition over fallible arrows, as in
`ApplyKleisliCompose`. -/
structure ApplyKleisliComposeE (ε σf σg α β γ : Type u) where
  a : α
  k : KleisliComposeE ε σf σg α β γ

/-- The lazy flat_map walk of `next` over fallible `g`: invoke `g` on the
items in order; a failing invocation aborts the pull with that failure,
an empty output moves on, and a non-empty output answers the pull with
its head. -/
def flatMapNextE (g : ArrowE ε σg β γ) :
    List β → Except ε (ArrowE ε σg β γ × Option γ)
  | [] => .ok (g, none)
  | b :: bs =>
    match g.invoke b with
    | .error e => .error e
    | .ok (g', []) => flatMapNextE g' bs
    | .ok (g', c :: _) => .ok (g', some c)

/-- `ApplyKleisliCompose::next` over fallible arrows: invoke `f` once at
the stored input, then walk its items through `g`; the first failing
call aborts the pull with its failure, unchanged. -/
def nextE (s : ApplyKleisliComposeE ε σf σg α β γ) :
    Except ε (ApplyKleisliComposeE ε σf σg α β γ × Option γ) :=
  match s.k.f.invoke s.a with
  | .error e => .error e
  | .ok (f', bs) =>
    match flatMapNextE s.k.g bs with
    | .error e => .error e
    | .ok (g', v) => .ok (⟨s.a, ⟨f', g'⟩⟩, v)

theorem flatMapNextE_append (g : ArrowE ε σg β γ) (bs1 bs2 : List β)
    (g' : ArrowE ε σg β γ) (h : flatMapNextE g bs1 = .ok (g', none)) :
    flatMapNextE g (bs1 ++ bs2) = flatMapNextE g' bs2 := by
  induction bs1 generalizing g with
  | nil =>
    simp only [flatMapNextE, Except.ok.injEq, Prod.mk.injEq] at h
    rw [List.nil_append, h.1]
  | cons b bs1 ih =>
    cases hb : g.invoke b with
    | error e => rw [flatMapNextE, hb] at h; exact absurd h (by simp)
    | ok r =>
      rcases r with ⟨g1, cs⟩
      cases cs with
      | nil =>
        rw [flatMapNextE, hb] at h
        rw [List.cons_append, flatMapNextE, hb]
        exact ih g1 h
      | cons c cs =>
        rw [flatMapNextE, hb] at h
        exact absurd h (by simp)

/-- C8: the combinator introduces no failure and no recovery of its own.
First, a failing invocation of `f` at the stored input makes the pull
fail with exactly that failure.  Second, when `f` succeeds and the walk
through its items reaches an item on which `g`'s invocation fails (all
earlier items having produced empty outputs), the pull fails with
exactly that failure, at that point.  Third, when `f` fails at the
stored input whatever its captured state, every pull of any iterator
holding that closure and input fails the same way — the failure recurs
on every pull. -/
theorem failure_propagation (s : ApplyKleisliComposeE ε σf σg α β γ)
    (e : ε) :
    (s.k.f.call s.k.f.state s.a = .error e → nextE s = .error e) ∧
    (∀ f' bs1 b bs2 g',
      s.k.f.invoke s.a = .ok (f', bs1 ++ b :: bs2) →
      flatMapNextE s.k.g bs1 = .ok (g', none) →
      g'.invoke b = .error e →
      nextE s = .error e) ∧
    ((∀ st, s.k.f.call st s.a = .error e) →
      ∀ s' : ApplyKleisliComposeE ε σf σg α β γ,
        s'.a = s.a → s'.k.f.call = s.k.f.call → nextE s' = .error e) := by
  refine ⟨?_, ?_, ?_⟩
  · intro hf
    rw [nextE, ArrowE.invoke, hf]
  · intro f' bs1 b bs2 g' hinv hwalk hgerr
    have hfl : flatMapNextE s.k.g (bs1 ++ b :: bs2) = .error e := by
      rw [flatMapNextE_append s.k.g bs1 (b :: bs2) g' hwalk, flatMapNextE,
        hgerr]
    simp only [nextE, hinv, hfl]
  · intro hall s' ha hc
    rw [nextE, ArrowE.invoke, hc, ha, hall s'.k.f.state]

/-- A fallible applied composition whose first stage fails on every
invocation. -/
def failingApply : ApplyKleisliComposeE Nat Nat Unit Nat Nat Nat :=
  ⟨0, ⟨⟨0, fun _ _ => .error 42⟩, ⟨(), fun s b => .ok (s, [b])⟩⟩⟩

theorem failure_propagation_witness :
    nextE failingApply = .error 42 :=
  (failure_propagation failingApply 42).1 rfl

end Kleisli
